/-
Verification of the XITE_GNN preprocessing and training pipeline.

This file gives a shallow embedding, in Lean 4, of the array/list-level
algorithms of the repository:

  * `Subject_Preprocessor._compute_intervals_info`  (preprocessing.py)
  * `Subject_Preprocessor._compute_slices_info` and `_extract_slices`
  * `Subject_Preprocessor._repair_features`
  * `compute_derivative`                            (feature_extraction_functions.py)
  * `count_pair_occurrences`, `frequency_analysis`, `frequency_analysis_parallel`
                                                    (frequency_analysis.py)
  * `compute_rel_AU_freq_cond_symm`                 (compute_adjacency.py)
  * the k-fold split and best-checkpoint tracking of `kfold_CV`
                                                    (training_functions.py)
  * `OpenFace_Features_Dataset.get_train_test_idxs` (OpenFace.py)

Numpy arrays become Lean lists; machine floats holding integer label values
become `ℤ`; signal/probability values become `ℚ` (exact arithmetic); a float
`NaN` slot becomes `Option.none`.  Fallible paths return `Option`.
-/

import Mathlib

namespace XITE

/-! ### Generic list helpers

`np.nonzero` on a boolean vector, i.e. the list of indices carrying `true`.
Used by `_compute_intervals_info` (via `is_interval_start.nonzero()`) and by
`get_train_test_idxs` (via `subj_mask.nonzero()`). -/

def nonzeroIdxs (bs : List Bool) : List ℕ :=
  (List.range bs.length).filter (fun i => bs.getD i false)

theorem mem_nonzeroIdxs {bs : List Bool} {i : ℕ} :
    i ∈ nonzeroIdxs bs ↔ i < bs.length ∧ bs.getD i false = true := by
  simp [nonzeroIdxs, List.mem_filter, List.mem_range]

theorem nonzeroIdxs_sorted (bs : List Bool) : (nonzeroIdxs bs).Sorted (· < ·) :=
  (List.pairwise_lt_range _).sublist (List.filter_sublist _)

theorem nonzeroIdxs_cons (b : Bool) (bs : List Bool) :
    nonzeroIdxs (b :: bs) = (if b then [0] else []) ++ (nonzeroIdxs bs).map (· + 1) := by
  unfold nonzeroIdxs
  rw [List.length_cons, List.range_succ_eq_map, List.filter_cons]
  simp only [List.getD_cons_zero]
  rw [List.filter_map]
  have : (fun i => (b :: bs).getD i false) ∘ Nat.succ = fun i => bs.getD i false := by
    funext i; simp [List.getD_cons_succ]
  rw [this]
  cases b <;> simp [Nat.succ_eq_add_one]

theorem nonzeroIdxs_append_true (bs : List Bool) :
    nonzeroIdxs (bs ++ [true]) = nonzeroIdxs bs ++ [bs.length] := by
  unfold nonzeroIdxs
  rw [List.length_append, List.length_singleton, List.range_succ, List.filter_append]
  congr 1
  · apply List.filter_congr
    intro i hi
    rw [List.mem_range] at hi
    rw [List.getD_append _ _ _ _ hi]
  · have h : (bs ++ [true]).getD bs.length false = true := by
      rw [List.getD_eq_getElem _ _ (by simp)]
      simp
    simp [h]

/-! ### Interval segmentation (`Subject_Preprocessor._compute_intervals_info`)

```python
is_interval_start = np.concatenate(([True], labels[:-1] != labels[1:]), axis=0)
start_idxs = is_interval_start.nonzero()[0]
end_idxs = np.roll(is_interval_start, -1).nonzero()[0]
durations = end_idxs - start_idxs + 1
interval_labels = labels[start_idxs]
pre_interval_labels = np.concatenate(([np.nan], interval_labels[0:-1]))
is_baseline_interval = (interval_labels == 0 &
                        np.isin(pre_interval_labels, self.labels_pain))
interval_labels[is_baseline_interval] = pre_interval_labels[is_baseline_interval]*100
```

Python's `&` binds tighter than `==`, so the mask computed by the source is
`interval_labels == (0 & isin(...)) = interval_labels == 0`: EVERY interval
whose raw label is `0` is relabeled to `100 *`(previous interval's label),
and the first interval (whose `pre` slot is `NaN`) is relabeled to `NaN`.
The embedding reproduces this faithfully; `interval_labels` entries are
`Option ℤ` with `none` standing for the float `NaN`. -/

/-- Elementwise `labels[:-1] != labels[1:]` (, length `n-1`). -/
def startBools (labels : List ℤ) : List Bool :=
  List.zipWith (fun a b => decide (a ≠ b)) labels labels.tail

def is_interval_start (labels : List ℤ) : List Bool :=
  true :: startBools labels

def start_idxs (labels : List ℤ) : List ℕ :=
  nonzeroIdxs (is_interval_start labels)

/-- Models `np.roll(·, -1)`: rotate left by one. -/
def roll1 (bs : List Bool) : List Bool := bs.tail ++ bs.take 1

def end_idxs (labels : List ℤ) : List ℕ :=
  nonzeroIdxs (roll1 (is_interval_start labels))

def durations (labels : List ℤ) : List ℤ :=
  List.zipWith (fun (e s : ℕ) => (e : ℤ) - (s : ℤ) + 1) (end_idxs labels) (start_idxs labels)

def interval_labels_raw (labels : List ℤ) : List ℤ :=
  (start_idxs labels).map (fun i => labels.getD i 0)

/-- Models `np.concatenate(([np.nan], xs[0:-1]))` over a float array: leading `NaN`. -/
def pre_of (xs : List ℤ) : List (Option ℤ) :=
  none :: (xs.dropLast.map some)

/-- The interval label array returned by `_compute_intervals_info`, after the
baseline relabeling step (including the `==`/`&` precedence slip, see above). -/
def interval_labels (labels : List ℤ) : List (Option ℤ) :=
  List.zipWith (fun l p => if l = 0 then p.map (fun q => q * 100) else some l)
    (interval_labels_raw labels) (pre_of (interval_labels_raw labels))

/-! ### Structural facts about the interval arrays -/

theorem startBools_length (labels : List ℤ) :
    (startBools labels).length = labels.length - 1 := by
  simp only [startBools, List.length_zipWith, List.length_tail]
  omega

theorem startBools_getD {labels : List ℤ} {j : ℕ} (h : j + 1 < labels.length) :
    (startBools labels).getD j false = decide (labels.getD j 0 ≠ labels.getD (j + 1) 0) := by
  have hj : j < (startBools labels).length := by rw [startBools_length]; omega
  rw [List.getD_eq_getElem _ _ hj]
  unfold startBools
  rw [List.getElem_zipWith]
  have h1 : j < labels.length := by omega
  have h2 : j < labels.tail.length := by rw [List.length_tail]; omega
  rw [List.getElem_tail]
  rw [List.getD_eq_getElem _ _ h1, List.getD_eq_getElem _ _ (by omega : j + 1 < labels.length)]

theorem start_idxs_eq (labels : List ℤ) :
    start_idxs labels = 0 :: (nonzeroIdxs (startBools labels)).map (· + 1) := by
  unfold start_idxs is_interval_start
  rw [nonzeroIdxs_cons]
  rfl

theorem end_idxs_eq (labels : List ℤ) :
    end_idxs labels = nonzeroIdxs (startBools labels) ++ [labels.length - 1] := by
  unfold end_idxs is_interval_start roll1
  have h : (true :: startBools labels).tail ++ (true :: startBools labels).take 1
      = startBools labels ++ [true] := by simp
  rw [h, nonzeroIdxs_append_true, startBools_length]

theorem start_idxs_length (labels : List ℤ) :
    (start_idxs labels).length = (nonzeroIdxs (startBools labels)).length + 1 := by
  rw [start_idxs_eq]; simp

theorem end_idxs_length (labels : List ℤ) :
    (end_idxs labels).length = (nonzeroIdxs (startBools labels)).length + 1 := by
  rw [end_idxs_eq]; simp

theorem start_idxs_getD_zero (labels : List ℤ) : (start_idxs labels).getD 0 0 = 0 := by
  rw [start_idxs_eq]; rfl

theorem start_idxs_getD_succ {labels : List ℤ} {i : ℕ}
    (h : i + 1 < (start_idxs labels).length) :
    (start_idxs labels).getD (i + 1) 0
      = (nonzeroIdxs (startBools labels)).getD i 0 + 1 := by
  have hG : i < (nonzeroIdxs (startBools labels)).length := by
    rw [start_idxs_length] at h; omega
  rw [start_idxs_eq, List.getD_cons_succ,
    List.getD_eq_getElem _ _ (by simpa using hG), List.getElem_map,
    List.getD_eq_getElem _ _ hG]

theorem end_idxs_getD_of_lt {labels : List ℤ} {i : ℕ}
    (h : i < (nonzeroIdxs (startBools labels)).length) :
    (end_idxs labels).getD i 0 = (nonzeroIdxs (startBools labels)).getD i 0 := by
  rw [end_idxs_eq, List.getD_append _ _ _ _ h]

theorem end_idxs_getD_last (labels : List ℤ) :
    (end_idxs labels).getD (nonzeroIdxs (startBools labels)).length 0
      = labels.length - 1 := by
  rw [end_idxs_eq, List.getD_eq_getElem _ _ (by simp)]
  rw [List.getElem_append_right (Nat.le_refl _)]
  simp

theorem end_idxs_lt_length {labels : List ℤ} {i : ℕ} (hne : labels ≠ [])
    (h : i < (end_idxs labels).length) :
    (end_idxs labels).getD i 0 < labels.length := by
  have hn : 0 < labels.length := List.length_pos.mpr hne
  have hG := end_idxs_length labels
  rcases Nat.lt_or_ge i (nonzeroIdxs (startBools labels)).length with hi | hi
  · rw [end_idxs_getD_of_lt hi]
    have hmem : (nonzeroIdxs (startBools labels)).getD i 0
        ∈ nonzeroIdxs (startBools labels) := by
      rw [List.getD_eq_getElem _ _ hi]
      exact List.getElem_mem hi
    have := (mem_nonzeroIdxs.mp hmem).1
    rw [startBools_length] at this
    omega
  · have hieq : i = (nonzeroIdxs (startBools labels)).length := by omega
    rw [hieq, end_idxs_getD_last]
    omega

/-- Strict monotonicity of `nonzeroIdxs` entries. -/
theorem nonzeroIdxs_getD_lt {bs : List Bool} {a b : ℕ} (hab : a < b)
    (hb : b < (nonzeroIdxs bs).length) :
    (nonzeroIdxs bs).getD a 0 < (nonzeroIdxs bs).getD b 0 := by
  have ha : a < (nonzeroIdxs bs).length := by omega
  rw [List.getD_eq_getElem _ _ ha, List.getD_eq_getElem _ _ hb]
  exact (nonzeroIdxs_sorted bs).rel_get_of_lt
    (show (⟨a, ha⟩ : Fin (nonzeroIdxs bs).length) < ⟨b, hb⟩ from Fin.mk_lt_mk.mpr hab)

/-- If `c` is hit by no entry of `nonzeroIdxs bs`, the boolean at `c` is `false`. -/
theorem getD_false_of_notin_nonzeroIdxs {bs : List Bool} {c : ℕ}
    (h : ∀ k, k < (nonzeroIdxs bs).length → (nonzeroIdxs bs).getD k 0 ≠ c)
    (hcn : c < bs.length) : bs.getD c false = false := by
  by_contra hbs
  have hbs : bs.getD c false = true := by
    cases hx : bs.getD c false
    · exact absurd hx hbs
    · rfl
  have hmem : c ∈ nonzeroIdxs bs := mem_nonzeroIdxs.mpr ⟨hcn, hbs⟩
  obtain ⟨k, hk, hkc⟩ := List.mem_iff_getElem.mp hmem
  exact h k hk (by rw [List.getD_eq_getElem _ _ hk]; exact hkc)

theorem nonzeroIdxs_getD_le {bs : List Bool} {a b : ℕ} (hab : a ≤ b)
    (hb : b < (nonzeroIdxs bs).length) :
    (nonzeroIdxs bs).getD a 0 ≤ (nonzeroIdxs bs).getD b 0 := by
  rcases Nat.eq_or_lt_of_le hab with rfl | hlt
  · exact Nat.le_refl _
  · exact Nat.le_of_lt (nonzeroIdxs_getD_lt hlt hb)

/-- Strictly inside an interval (`start i < j ≤ end i`) there is no interval
boundary: the `labels[:-1] != labels[1:]` bit at `j-1` is `false`. -/
theorem no_start_within {labels : List ℤ} {i j : ℕ} (hne : labels ≠ [])
    (hi : i < (start_idxs labels).length)
    (hj1 : (start_idxs labels).getD i 0 < j)
    (hj2 : j ≤ (end_idxs labels).getD i 0) :
    (startBools labels).getD (j - 1) false = false := by
  have hSlen := start_idxs_length labels
  have hElen := end_idxs_length labels
  have hElt : (end_idxs labels).getD i 0 < labels.length :=
    end_idxs_lt_length hne (by omega)
  have hj0 : 0 < j := by omega
  have hcn : j - 1 < (startBools labels).length := by
    rw [startBools_length]; omega
  apply getD_false_of_notin_nonzeroIdxs _ hcn
  intro k hk
  rcases Nat.lt_or_ge i (nonzeroIdxs (startBools labels)).length with him | him
  · have hEi : (end_idxs labels).getD i 0 = (nonzeroIdxs (startBools labels)).getD i 0 :=
      end_idxs_getD_of_lt him
    rcases Nat.eq_zero_or_pos i with hi0 | hipos
    · subst hi0
      have h0k : (nonzeroIdxs (startBools labels)).getD 0 0
          ≤ (nonzeroIdxs (startBools labels)).getD k 0 :=
        nonzeroIdxs_getD_le (Nat.zero_le k) hk
      rw [hEi] at hj2
      omega
    · obtain ⟨i', rfl⟩ : ∃ i', i = i' + 1 := ⟨i - 1, by omega⟩
      have hSi : (start_idxs labels).getD (i' + 1) 0
          = (nonzeroIdxs (startBools labels)).getD i' 0 + 1 :=
        start_idxs_getD_succ (by omega)
      rw [hSi] at hj1; rw [hEi] at hj2
      rcases Nat.lt_or_ge k (i' + 1) with hk1 | hk2
      · have : (nonzeroIdxs (startBools labels)).getD k 0
            ≤ (nonzeroIdxs (startBools labels)).getD i' 0 :=
          nonzeroIdxs_getD_le (by omega) (by omega)
        omega
      · have : (nonzeroIdxs (startBools labels)).getD (i' + 1) 0
            ≤ (nonzeroIdxs (startBools labels)).getD k 0 :=
          nonzeroIdxs_getD_le hk2 hk
        omega
  · rcases Nat.eq_zero_or_pos i with hi0 | hipos
    · omega
    · obtain ⟨i', rfl⟩ : ∃ i', i = i' + 1 := ⟨i - 1, by omega⟩
      have hSi : (start_idxs labels).getD (i' + 1) 0
          = (nonzeroIdxs (startBools labels)).getD i' 0 + 1 :=
        start_idxs_getD_succ (by omega)
      rw [hSi] at hj1
      have : (nonzeroIdxs (startBools labels)).getD k 0
          ≤ (nonzeroIdxs (startBools labels)).getD i' 0 :=
        nonzeroIdxs_getD_le (by omega) (by omega)
      omega

/-- The raw labels are constant on each computed interval. -/
theorem labels_const_within {labels : List ℤ} {i : ℕ} (hne : labels ≠ [])
    (hi : i < (start_idxs labels).length) :
    ∀ j, (start_idxs labels).getD i 0 ≤ j → j ≤ (end_idxs labels).getD i 0 →
      labels.getD j 0 = labels.getD ((start_idxs labels).getD i 0) 0 := by
  have hElt : (end_idxs labels).getD i 0 < labels.length :=
    end_idxs_lt_length hne (by rw [end_idxs_length]; rw [start_idxs_length] at hi; omega)
  set S := (start_idxs labels).getD i 0 with hS
  have key : ∀ d, S + d ≤ (end_idxs labels).getD i 0 →
      labels.getD (S + d) 0 = labels.getD S 0 := by
    intro d
    induction d with
    | zero => intro _; rfl
    | succ d ih =>
      intro hd
      have hns : (startBools labels).getD (S + d + 1 - 1) false = false :=
        no_start_within hne hi (by omega) (by omega)
      have heq : labels.getD (S + d) 0 = labels.getD (S + d + 1) 0 := by
        have hidx : S + d + 1 - 1 = S + d := by omega
        rw [hidx, startBools_getD (by omega)] at hns
        simpa using hns
      rw [show S + (d + 1) = S + d + 1 from rfl, ← heq]
      exact ih (by omega)
  intro j hj1 hj2
  have hjS : j = S + (j - S) := by omega
  rw [hjS]
  exact key _ (by omega)

theorem durations_length (labels : List ℤ) :
    (durations labels).length = (start_idxs labels).length := by
  unfold durations
  rw [List.length_zipWith, end_idxs_length, start_idxs_length]
  omega

theorem durations_getD {labels : List ℤ} {i : ℕ}
    (h : i < (start_idxs labels).length) :
    (durations labels).getD i 0
      = ((end_idxs labels).getD i 0 : ℤ) - ((start_idxs labels).getD i 0 : ℤ) + 1 := by
  have hd : i < (durations labels).length := by rw [durations_length]; omega
  have hE : i < (end_idxs labels).length := by
    rw [end_idxs_length]; rw [start_idxs_length] at h; omega
  rw [List.getD_eq_getElem _ _ hd]
  unfold durations
  rw [List.getElem_zipWith]
  rw [List.getD_eq_getElem _ _ hE, List.getD_eq_getElem _ _ h]

theorem interval_labels_raw_length (labels : List ℤ) :
    (interval_labels_raw labels).length = (start_idxs labels).length := by
  simp [interval_labels_raw]

theorem interval_labels_length (labels : List ℤ) :
    (interval_labels labels).length = (start_idxs labels).length := by
  have hraw := interval_labels_raw_length labels
  have hpos : 0 < (start_idxs labels).length := by rw [start_idxs_length]; omega
  unfold interval_labels pre_of
  rw [List.length_zipWith, List.length_cons, List.length_map, List.length_dropLast]
  omega

theorem labels_differ_at_boundary {labels : List ℤ} {i : ℕ}
    (h : i + 1 < (start_idxs labels).length) :
    labels.getD ((end_idxs labels).getD i 0) 0
      ≠ labels.getD ((start_idxs labels).getD (i + 1) 0) 0 := by
  have hG : i < (nonzeroIdxs (startBools labels)).length := by
    rw [start_idxs_length] at h; omega
  have hEi := end_idxs_getD_of_lt hG
  have hSi := start_idxs_getD_succ h
  have hmem : (nonzeroIdxs (startBools labels)).getD i 0 ∈ nonzeroIdxs (startBools labels) := by
    rw [List.getD_eq_getElem _ _ hG]
    exact List.getElem_mem hG
  obtain ⟨hlt, htrue⟩ := mem_nonzeroIdxs.mp hmem
  rw [startBools_length] at hlt
  rw [startBools_getD (by omega)] at htrue
  rw [hEi, hSi]
  simpa using htrue

/-- Claim C2. For every non-empty label array, the `(start, end, label, duration)`
arrays returned by `_compute_intervals_info` partition the frame index range
with no gaps or overlaps: the four arrays are aligned 1:1, the first interval
starts at index 0, each interval's end index is the next interval's start index
minus one, the last interval ends at the final frame, each duration equals
`end − start + 1`, and the input labels are constant within every interval and
differ across every boundary between adjacent intervals. -/
theorem C2_intervals_partition (labels : List ℤ) (hne : labels ≠ []) :
    ((end_idxs labels).length = (start_idxs labels).length
      ∧ (durations labels).length = (start_idxs labels).length
      ∧ (interval_labels labels).length = (start_idxs labels).length)
    ∧ (start_idxs labels).getD 0 0 = 0
    ∧ (∀ i, i + 1 < (start_idxs labels).length →
        (start_idxs labels).getD (i + 1) 0 = (end_idxs labels).getD i 0 + 1)
    ∧ (end_idxs labels).getD ((end_idxs labels).length - 1) 0 = labels.length - 1
    ∧ (∀ i, i < (start_idxs labels).length →
        (durations labels).getD i 0
          = ((end_idxs labels).getD i 0 : ℤ) - ((start_idxs labels).getD i 0 : ℤ) + 1)
    ∧ (∀ i, i < (start_idxs labels).length → ∀ j,
        (start_idxs labels).getD i 0 ≤ j → j ≤ (end_idxs labels).getD i 0 →
        labels.getD j 0 = labels.getD ((start_idxs labels).getD i 0) 0)
    ∧ (∀ i, i + 1 < (start_idxs labels).length →
        labels.getD ((end_idxs labels).getD i 0) 0
          ≠ labels.getD ((start_idxs labels).getD (i + 1) 0) 0) := by
  refine ⟨⟨?_, durations_length labels, interval_labels_length labels⟩,
    start_idxs_getD_zero labels, ?_, ?_, fun i hi => durations_getD hi,
    fun i hi => labels_const_within hne hi, fun i hi => labels_differ_at_boundary hi⟩
  · rw [end_idxs_length, start_idxs_length]
  · intro i hi
    have hG : i < (nonzeroIdxs (startBools labels)).length := by
      rw [start_idxs_length] at hi; omega
    rw [start_idxs_getD_succ hi, end_idxs_getD_of_lt hG]
  · have h := end_idxs_getD_last labels
    rw [end_idxs_length]
    simpa using h

/-- Witness for C2 at the concrete label array `[0, 0, 1]`. -/
theorem C2_intervals_partition_witness :
    ((end_idxs [0, 0, 1]).length = (start_idxs [0, 0, 1]).length
      ∧ (durations [0, 0, 1]).length = (start_idxs [0, 0, 1]).length
      ∧ (interval_labels [0, 0, 1]).length = (start_idxs [0, 0, 1]).length)
    ∧ (start_idxs [0, 0, 1]).getD 0 0 = 0
    ∧ (∀ i, i + 1 < (start_idxs [0, 0, 1]).length →
        (start_idxs [0, 0, 1]).getD (i + 1) 0 = (end_idxs [0, 0, 1]).getD i 0 + 1)
    ∧ (end_idxs [0, 0, 1]).getD ((end_idxs [0, 0, 1]).length - 1) 0
        = ([0, 0, 1] : List ℤ).length - 1
    ∧ (∀ i, i < (start_idxs [0, 0, 1]).length →
        (durations [0, 0, 1]).getD i 0
          = ((end_idxs [0, 0, 1]).getD i 0 : ℤ) - ((start_idxs [0, 0, 1]).getD i 0 : ℤ) + 1)
    ∧ (∀ i, i < (start_idxs [0, 0, 1]).length → ∀ j,
        (start_idxs [0, 0, 1]).getD i 0 ≤ j → j ≤ (end_idxs [0, 0, 1]).getD i 0 →
        ([0, 0, 1] : List ℤ).getD j 0 = ([0, 0, 1] : List ℤ).getD ((start_idxs [0, 0, 1]).getD i 0) 0)
    ∧ (∀ i, i + 1 < (start_idxs [0, 0, 1]).length →
        ([0, 0, 1] : List ℤ).getD ((end_idxs [0, 0, 1]).getD i 0) 0
          ≠ ([0, 0, 1] : List ℤ).getD ((start_idxs [0, 0, 1]).getD (i + 1) 0) 0) :=
  C2_intervals_partition [0, 0, 1] (by decide)

/-- Claim C1 (code bug, evaluation at the failing input).  The relabeling step of
`_compute_intervals_info` is intended (per the source's own comment and the
spec) to relabel a zero interval only when its immediate predecessor is a
recognized pain label.  Because Python's `&` binds tighter than `==`, the mask
`interval_labels == 0 & np.isin(pre_interval_labels, labels_pain)` degenerates
to `interval_labels == 0`, so EVERY zero interval is relabeled.  On the label
array `[-10, -10, 0, 0]` (an invalid stimulus label `-10`, which is not a pain
label, followed by baseline) the zero interval is relabeled to
`100 × (-10) = -1000` although the claim says it must keep its raw label `0`. -/
theorem C1_relabel_bug_eval :
    interval_labels [-10, -10, 0, 0] = [some (-10), some (-1000)] := by decide

/-! ### Slice selection (`_compute_slices_info` / `_extract_slices`)

A slicing policy (`slice_shifts`, `slice_lengths`, `interval_min_lengths`,
`pre_interval_min_lengths` from the config module) keyed by pain group; the
`B`-prefixed keys (`"BpH"` etc.) are the `…B` fields. -/

inductive PainGroup | pH | pE | tH | tE
deriving DecidableEq, Fintype

structure SliceConfig where
  shift : PainGroup → ℤ
  shiftB : PainGroup → ℤ
  sliceLen : PainGroup → ℤ
  sliceLenB : PainGroup → ℤ
  intervalMin : PainGroup → ℤ
  preIntervalMin : PainGroup → ℤ

def labels_pain : List ℤ := [-1, -2, -3, -4, -5, -6, 1, 2, 3, 4, 5, 6]
def labels_base : List ℤ :=
  [-100, -200, -300, -400, -500, -600, 100, 200, 300, 400, 500, 600]

/-- Models `XITE_Preprocessor._get_label_group`: maps a label to its pain group plus a
flag telling whether it is one of the `B…` (baseline-after-pain) groups;
`none` models the `ValueError` raised on any other label. -/
def get_label_group (label : ℤ) : Option (PainGroup × Bool) :=
  if label = 1 ∨ label = 2 ∨ label = 3 then some (.pH, false)
  else if label = -1 ∨ label = -2 ∨ label = -3 then some (.pE, false)
  else if label = 4 ∨ label = 5 ∨ label = 6 then some (.tH, false)
  else if label = -4 ∨ label = -5 ∨ label = -6 then some (.tE, false)
  else if label = 100 ∨ label = 200 ∨ label = 300 then some (.pH, true)
  else if label = -100 ∨ label = -200 ∨ label = -300 then some (.pE, true)
  else if label = 400 ∨ label = 500 ∨ label = 600 then some (.tH, true)
  else if label = -400 ∨ label = -500 ∨ label = -600 then some (.tE, true)
  else none

/-- Models `pre_interval_labels = np.concatenate(([np.nan], interval_labels[0:-1]))`,
evaluated at interval index `i` (entries of `interval_labels` are themselves
`Option ℤ`, as the relabeling can have written `NaN` into the first slot). -/
def pre_label (labels : List ℤ) (i : ℕ) : Option ℤ :=
  if i = 0 then none else (interval_labels labels).getD (i - 1) none

/-- Models `post_interval_labels = np.concatenate((interval_labels[1::], [np.nan]))`. -/
def post_label (labels : List ℤ) (i : ℕ) : Option ℤ :=
  if i + 1 < (start_idxs labels).length then (interval_labels labels).getD (i + 1) none
  else none

/-- Models `pre_durations = np.concatenate(([np.nan], durations[0:-1]))`. -/
def pre_duration (labels : List ℤ) (i : ℕ) : Option ℤ :=
  if i = 0 then none else some ((durations labels).getD (i - 1) 0)

/-- Models `post_durations = np.concatenate((durations[1::], [np.nan]))`. -/
def post_duration (labels : List ℤ) (i : ℕ) : Option ℤ :=
  if i + 1 < (start_idxs labels).length then some ((durations labels).getD (i + 1) 0)
  else none

/-- Models `np.isin(x, self.labels_base + [0])`; `NaN` is in no list. -/
def isBaseOrZero (x : Option ℤ) : Bool :=
  match x with
  | some v => labels_base.contains v || v == 0
  | none => false

/-- The interval indices selected as pain slices for one pain `label` of group
`g`: the `is_pain_intervals` mask followed by the interlapping-frames filter. -/
def pain_interval_ids (cfg : SliceConfig) (f : ℕ) (labels : List ℤ)
    (label : ℤ) (g : PainGroup) : List ℕ :=
  (((List.range (start_idxs labels).length).filter (fun i =>
      ((interval_labels labels).getD i none == some label)
      && isBaseOrZero (pre_label labels i)
      && isBaseOrZero (post_label labels i)
      && (match pre_duration labels i with
          | some d => decide (cfg.preIntervalMin g ≤ d)
          | none => false)
      && decide (cfg.intervalMin g * (f : ℤ) - 2 ≤ (durations labels).getD i 0))).filter
    (fun i =>
      match post_duration labels i with
      | some d => decide (cfg.shift g * (f : ℤ) + cfg.sliceLen g * (f : ℤ)
          - (durations labels).getD i 0 ≤ d)
      | none => false))

/-- The interval indices selected as baseline slices for one pain `label`:
`(interval_labels == label*100) & (pre_interval_labels == label)` followed by
the minimum-duration filter `B_duration >= B_shift + B_len`. -/
def base_interval_ids (cfg : SliceConfig) (f : ℕ) (labels : List ℤ)
    (label : ℤ) (g : PainGroup) : List ℕ :=
  ((List.range (start_idxs labels).length).filter (fun i =>
      ((interval_labels labels).getD i none == some (label * 100))
      && (pre_label labels i == some label))).filter
    (fun i =>
      decide (cfg.shiftB g * (f : ℤ) + cfg.sliceLenB g * (f : ℤ)
        ≤ (durations labels).getD i 0))

/-- The slices contributed by one pain label: the pain-slice start indices
followed by the baseline-slice start indices, each paired with its slice
label.  The `none` match arm is unreachable: `_get_label_group` succeeds on
every member of `labels_pain`. -/
def slices_for_label (cfg : SliceConfig) (f : ℕ) (labels : List ℤ) (label : ℤ) :
    List (ℤ × ℤ) :=
  match get_label_group label with
  | some (g, _) =>
      (pain_interval_ids cfg f labels label g).map
        (fun i => (((start_idxs labels).getD i 0 : ℤ) + cfg.shift g * (f : ℤ), label))
      ++ (base_interval_ids cfg f labels label g).map
        (fun i => (((start_idxs labels).getD i 0 : ℤ) + cfg.shiftB g * (f : ℤ),
          label * 100))
  | none => []

/-- Models `Subject_Preprocessor._compute_slices_info`: the per-label slice lists,
concatenated in the order of `labels_pain` (the source's accumulation loop). -/
def compute_slices_info (cfg : SliceConfig) (f : ℕ) (labels : List ℤ) :
    List (ℤ × ℤ) :=
  (labels_pain.map (slices_for_label cfg f labels)).flatten

/-- The slice window length used by `_extract_slices`:
`slice_len = self.slice_lengths[pain_group]*f_sampling`; the extracted window
covers the frame indices `start_idx .. start_idx + slice_len` inclusive
(`data.iloc[start_idx:end_idx+1]`). -/
def slice_len_of (cfg : SliceConfig) (f : ℕ) (label : ℤ) : ℤ :=
  match get_label_group label with
  | some (g, false) => cfg.sliceLen g * (f : ℤ)
  | some (g, true) => cfg.sliceLenB g * (f : ℤ)
  | none => 0

/-- The slicing policy of the C3 scenario: `pH` with shift 0, length 4,
interval_min 4, pre_interval_min 3 (and the matching baseline policy). -/
def cfg3 : SliceConfig :=
  { shift := fun _ => 0, shiftB := fun _ => 0,
    sliceLen := fun _ => 4, sliceLenB := fun _ => 4,
    intervalMin := fun _ => 4, preIntervalMin := fun _ => 3 }

def labels3 : List ℤ := [0, 0, 0, 1, 1, 1, 1, 0, 0, 0, 0, 0, 0, 0, 0]

/-- Claim C3 (code bug, evaluation at the failing input).  On the spec's scenario
`[0,0,0,1,1,1,1,0,…,0]` with sampling factor 1 and the `pH` policy
(shift 0, length 4, interval_min 4, pre_interval_min 3) the source produces
NO pain slice — only the baseline slice at start index 7 with label 100.  The
`==`/`&` precedence slip in `_compute_intervals_info` relabels the leading
baseline interval to `NaN`, so the pain interval's predecessor is no longer
recognized as baseline and the pain interval is rejected.  The claim (and the
spec scenario) require one pain slice `(3, 1)` windowed `[3, 7]` in addition
to the baseline slice. -/
theorem C3_scenario_eval :
    compute_slices_info cfg3 1 labels3 = [(7, 100)] := by decide

/-! ### C9: slice windows versus the data bounds -/

/-- A policy with the repository's `pH`/`BpH` shift values (0 and 4) and a pain
slice length of 6, used to exhibit a slice window that reaches one index past
the last frame. -/
def cfg9 : SliceConfig :=
  { shift := fun _ => 0, shiftB := fun _ => 4,
    sliceLen := fun _ => 6, sliceLenB := fun _ => 6,
    intervalMin := fun _ => 4, preIntervalMin := fun _ => 3 }

def labels9 : List ℤ := [2, 2, 2, 0, 0, 0, 1, 1, 1, 1, 0, 0]

/-- Claim C9, counterexample.  On `labels9` (12 frames) with sampling factor 1 and
policy `cfg9`, the pain interval `[6,9]` is accepted (its interlapping-frames
slack `0 + 6 - 4 = 2` exactly equals the following interval's duration 2), and
the accepted slice starts at 6 with window `[6, 6 + 6] = [6, 12]`: the window
contains frame index 12 = total_frames, outside `[0, total_frames - 1]`.
(The extraction `data.iloc[start:end+1]` silently truncates, so no
out-of-bounds read happens, but the window is not contained in
`[0, total_frames-1]` as claimed.) -/
theorem C9_window_exceeds_last_frame :
    ((6 : ℤ), (1 : ℤ)) ∈ compute_slices_info cfg9 1 labels9
    ∧ ¬((6 : ℤ) + slice_len_of cfg9 1 1 ≤ (labels9.length : ℤ) - 1) := by decide

theorem start_succ_eq_end {labels : List ℤ} {i : ℕ}
    (h : i + 1 < (start_idxs labels).length) :
    (start_idxs labels).getD (i + 1) 0 = (end_idxs labels).getD i 0 + 1 := by
  have hG : i < (nonzeroIdxs (startBools labels)).length := by
    rw [start_idxs_length] at h; omega
  rw [start_idxs_getD_succ h, end_idxs_getD_of_lt hG]

theorem interval_labels_nil : interval_labels ([] : List ℤ) = [none] := by decide

theorem ne_nil_of_interval_label {labels : List ℤ} {i : ℕ} {v : ℤ}
    (h : (interval_labels labels).getD i none = some v) : labels ≠ [] := by
  rintro rfl
  rw [interval_labels_nil] at h
  have hnone : ([(none : Option ℤ)].getD i none) = none := by
    cases i <;> rfl
  rw [hnone] at h
  exact Option.noConfusion h

/-- The function `_get_label_group` succeeds on every pain label, yielding the non-baseline
group, and on the corresponding `×100` label, yielding the baseline variant of
the same group. -/
theorem labels_pain_group (label : ℤ) (h : label ∈ labels_pain) :
    ∃ g, get_label_group label = some (g, false)
      ∧ get_label_group (label * 100) = some (g, true) := by
  simp only [labels_pain, List.mem_cons, List.not_mem_nil, or_false] at h
  rcases h with rfl | rfl | rfl | rfl | rfl | rfl | rfl | rfl | rfl | rfl | rfl | rfl
  · exact ⟨.pE, by decide, by decide⟩
  · exact ⟨.pE, by decide, by decide⟩
  · exact ⟨.pE, by decide, by decide⟩
  · exact ⟨.tE, by decide, by decide⟩
  · exact ⟨.tE, by decide, by decide⟩
  · exact ⟨.tE, by decide, by decide⟩
  · exact ⟨.pH, by decide, by decide⟩
  · exact ⟨.pH, by decide, by decide⟩
  · exact ⟨.pH, by decide, by decide⟩
  · exact ⟨.tH, by decide, by decide⟩
  · exact ⟨.tH, by decide, by decide⟩
  · exact ⟨.tH, by decide, by decide⟩

theorem slices_for_label_eq {cfg : SliceConfig} {f : ℕ} {labels : List ℤ}
    {label : ℤ} {g : PainGroup} {b : Bool}
    (hg : get_label_group label = some (g, b)) :
    slices_for_label cfg f labels label =
      (pain_interval_ids cfg f labels label g).map
        (fun i => (((start_idxs labels).getD i 0 : ℤ) + cfg.shift g * (f : ℤ), label))
      ++ (base_interval_ids cfg f labels label g).map
        (fun i => (((start_idxs labels).getD i 0 : ℤ) + cfg.shiftB g * (f : ℤ),
          label * 100)) := by
  unfold slices_for_label
  rw [hg]

/-- Claim C9, amended.  For every policy with non-negative shifts, every accepted
slice's window `[start, start + slice_len]` satisfies `0 ≤ start` and
`start + slice_len ≤ total_frames`: the window never starts before the data
and extends at most one index past the last frame (where the half-open
`iloc` slicing truncates, so no index outside the data is ever read). -/
theorem C9_amended_windows_bounded (cfg : SliceConfig) (f : ℕ) (labels : List ℤ)
    (hshift : ∀ g, 0 ≤ cfg.shift g) (hshiftB : ∀ g, 0 ≤ cfg.shiftB g) :
    ∀ p ∈ compute_slices_info cfg f labels,
      0 ≤ p.1 ∧ p.1 + slice_len_of cfg f p.2 ≤ (labels.length : ℤ) := by
  intro p hp
  unfold compute_slices_info at hp
  rw [List.mem_flatten] at hp
  obtain ⟨l, hl, hpl⟩ := hp
  rw [List.mem_map] at hl
  obtain ⟨label, hlabel, rfl⟩ := hl
  obtain ⟨g, hg, hg100⟩ := labels_pain_group label hlabel
  rw [slices_for_label_eq hg, List.mem_append] at hpl
  have hSnonneg : ∀ i : ℕ, (0 : ℤ) ≤ ((start_idxs labels).getD i 0 : ℤ) := fun i =>
    Int.natCast_nonneg _
  rcases hpl with hpain | hbase
  · rw [List.mem_map] at hpain
    obtain ⟨i, hi, rfl⟩ := hpain
    rw [pain_interval_ids, List.mem_filter] at hi
    obtain ⟨hi1, hinter⟩ := hi
    rw [List.mem_filter, List.mem_range] at hi1
    obtain ⟨him, hcand⟩ := hi1
    rw [Bool.and_eq_true, Bool.and_eq_true, Bool.and_eq_true, Bool.and_eq_true] at hcand
    obtain ⟨⟨⟨⟨hlab, _⟩, _⟩, _⟩, _⟩ := hcand
    have hlab' := (beq_iff_eq ..).mp hlab
    have hne : labels ≠ [] := ne_nil_of_interval_label hlab'
    cases hpost : post_duration labels i with
    | none =>
      rw [hpost] at hinter
      exact absurd hinter (by simp)
    | some d =>
      rw [hpost] at hinter
      have hinter' : cfg.shift g * (f : ℤ) + cfg.sliceLen g * (f : ℤ)
          - (durations labels).getD i 0 ≤ d := of_decide_eq_true hinter
      have hsucc : i + 1 < (start_idxs labels).length
          ∧ d = (durations labels).getD (i + 1) 0 := by
        unfold post_duration at hpost
        by_cases hc : i + 1 < (start_idxs labels).length
        · rw [if_pos hc] at hpost
          exact ⟨hc, (Option.some.inj hpost).symm⟩
        · rw [if_neg hc] at hpost
          exact Option.noConfusion hpost
      obtain ⟨him1, rfl⟩ := hsucc
      have hd_i := @durations_getD labels i (by omega)
      have hd_i1 := @durations_getD labels (i + 1) (by omega)
      have hS1 := start_succ_eq_end him1
      have hE1 : (end_idxs labels).getD (i + 1) 0 < labels.length :=
        end_idxs_lt_length hne
          (by rw [end_idxs_length]; rw [start_idxs_length] at him1; omega)
      have hshiftf : (0 : ℤ) ≤ cfg.shift g * (f : ℤ) :=
        mul_nonneg (hshift g) (Int.natCast_nonneg f)
    -- the slice label is the pain label, so the extraction length is the pain length
      have hlen : slice_len_of cfg f label = cfg.sliceLen g * (f : ℤ) := by
        unfold slice_len_of
        rw [hg]
      refine ⟨by have := hSnonneg i; omega, ?_⟩
      rw [hlen]
      omega
  · rw [List.mem_map] at hbase
    obtain ⟨i, hi, rfl⟩ := hbase
    rw [base_interval_ids, List.mem_filter] at hi
    obtain ⟨hi1, hdurB⟩ := hi
    rw [List.mem_filter, List.mem_range] at hi1
    obtain ⟨him, hcand⟩ := hi1
    rw [Bool.and_eq_true] at hcand
    obtain ⟨hlab, _⟩ := hcand
    have hlab' := (beq_iff_eq ..).mp hlab
    have hne : labels ≠ [] := ne_nil_of_interval_label hlab'
    have hdurB' : cfg.shiftB g * (f : ℤ) + cfg.sliceLenB g * (f : ℤ)
        ≤ (durations labels).getD i 0 := of_decide_eq_true hdurB
    have hd_i := @durations_getD labels i (by omega)
    have hEi : (end_idxs labels).getD i 0 < labels.length :=
      end_idxs_lt_length hne
        (by rw [end_idxs_length]; rw [start_idxs_length] at him; omega)
    have hshiftf : (0 : ℤ) ≤ cfg.shiftB g * (f : ℤ) :=
      mul_nonneg (hshiftB g) (Int.natCast_nonneg f)
    have hlen : slice_len_of cfg f (label * 100) = cfg.sliceLenB g * (f : ℤ) := by
      unfold slice_len_of
      rw [hg100]
    refine ⟨by have := hSnonneg i; omega, ?_⟩
    rw [hlen]
    omega

/-- Witness for the amended C9: the accepted slice `(6, 1)` of policy `cfg9`,
sampling factor 1 and label array `labels9` stays within the amended bounds. -/
theorem C9_amended_windows_bounded_witness :
    (0 : ℤ) ≤ ((6 : ℤ), (1 : ℤ)).1
      ∧ ((6 : ℤ), (1 : ℤ)).1 + slice_len_of cfg9 1 ((6 : ℤ), (1 : ℤ)).2
          ≤ ((labels9 : List ℤ).length : ℤ) :=
  C9_amended_windows_bounded cfg9 1 labels9
    (fun g => by cases g <;> decide) (fun g => by cases g <;> decide)
    ((6 : ℤ), (1 : ℤ)) (by decide)

/-! ### `compute_derivative` (feature_extraction_functions.py) -/

/-- Models `np.array([np.divide(signal[i + h] - signal[i], h)
               for i in range(signal.shape[0] - 1 - h)])`. -/
def compute_derivative (signal : List ℚ) (h : ℕ) : List ℚ :=
  (List.range (signal.length - 1 - h)).map
    (fun i => (signal.getD (i + h) 0 - signal.getD i 0) / (h : ℚ))

/-- Claim C10. For every signal of length `n ≥ h + 2`, `compute_derivative`
returns exactly `n − 1 − h` values, the `i`-th equal to
`(signal[i+h] − signal[i]) / h`; for `h = 1` it returns `n − 2` values (thus
omitting the final forward difference). -/
theorem C10_compute_derivative_spec (signal : List ℚ) (h : ℕ)
    (hlen : h + 2 ≤ signal.length) :
    (compute_derivative signal h).length = signal.length - 1 - h
    ∧ (∀ i, i < signal.length - 1 - h →
        (compute_derivative signal h).getD i 0
          = (signal.getD (i + h) 0 - signal.getD i 0) / (h : ℚ))
    ∧ (compute_derivative signal 1).length = signal.length - 2 := by
  refine ⟨by simp [compute_derivative],
    ?_, by simp only [compute_derivative, List.length_map, List.length_range]; omega⟩
  intro i hi
  have hi' : i < (compute_derivative signal h).length := by
    simp only [compute_derivative, List.length_map, List.length_range]
    omega
  rw [List.getD_eq_getElem _ _ hi']
  simp [compute_derivative]

/-- Witness for C10 at `signal = [1, 2, 4]`, `h = 1`. -/
theorem C10_compute_derivative_spec_witness :
    (compute_derivative [1, 2, 4] 1).length = ([1, 2, 4] : List ℚ).length - 1 - 1
    ∧ (∀ i, i < ([1, 2, 4] : List ℚ).length - 1 - 1 →
        (compute_derivative [1, 2, 4] 1).getD i 0
          = (([1, 2, 4] : List ℚ).getD (i + 1) 0 - ([1, 2, 4] : List ℚ).getD i 0) / (1 : ℚ))
    ∧ (compute_derivative [1, 2, 4] 1).length = ([1, 2, 4] : List ℚ).length - 2 :=
  C10_compute_derivative_spec [1, 2, 4] 1 (by decide)

/-! ### `_repair_features` -/

/-- A feature table entry: a finite value, `NaN`, `+Inf`, or `-Inf`. -/
inductive Entry | val (q : ℚ) | nan | pinf | ninf
deriving DecidableEq

/-- Models `features.replace([np.inf, -np.inf], np.nan)`. -/
def Entry.replaceInfNan : Entry → Entry
  | .pinf => .nan
  | .ninf => .nan
  | e => e

def Entry.isNan : Entry → Bool
  | .nan => true
  | _ => false

/-- One row of the feature table: its label index level and its entries. -/
structure FRow where
  label : ℤ
  vals : List Entry
deriving DecidableEq

/-- The supported values of the `strategy` argument: `"mean"`, `"delete"`, or
a numeric replacement value. -/
inductive RepairStrategy | mean | delete | fixed (c : ℚ)

/-- Models `data_label.mean()` for column `j`: the mean over the finite entries
(pandas skips `NaN`); an all-`NaN` column yields `NaN`. -/
def col_mean (rows : List FRow) (j : ℕ) : Entry :=
  let vs := rows.filterMap (fun r => match r.vals.getD j .nan with
    | .val q => some q
    | _ => none)
  match vs with
  | [] => .nan
  | _ => .val (vs.sum / (vs.length : ℚ))

/-- Models `data_label.fillna(value=data_label.mean(), axis=0)` applied to one row:
each `NaN` entry is replaced by the mean of its column over the rows carrying
the same label. -/
def fill_row_with_group_means (all : List FRow) (r : FRow) : FRow :=
  { label := r.label,
    vals := (List.range r.vals.length).map (fun j =>
      match r.vals.getD j .nan with
      | .nan => col_mean (all.filter (fun r2 => r2.label == r.label)) j
      | e => e) }

def FRow.hasNan (r : FRow) : Bool := r.vals.any Entry.isNan

/-- Models `Subject_Preprocessor._repair_features`.  `±Inf` entries are first replaced
by `NaN`.  The `"delete"` branch executes
`return features.dropna(axis=0, how="any", inplace=True)`; pandas `dropna`
with `inplace=True` returns `None`, so the function returns Python `None`
(`Option.none` here).  The `"mean"` branch imputes per-label-group column
means and then drops the rows still containing `NaN`; a numeric strategy
fills every `NaN` with the given value. -/
def repair_features (t : List FRow) (strategy : RepairStrategy) :
    Option (List FRow) :=
  let t1 := t.map (fun r =>
    { label := r.label, vals := r.vals.map Entry.replaceInfNan })
  match strategy with
  | .delete => none
  | .mean => some ((t1.map (fill_row_with_group_means t1)).filter
      (fun r => !r.hasNan))
  | .fixed c => some (t1.map (fun r =>
      { label := r.label,
        vals := r.vals.map (fun e => if e.isNan then .val c else e) }))

/-- Claim C4 (code bug, evaluation at the failing input).  For the `"delete"`
strategy `_repair_features` returns Python `None` for EVERY feature table —
`features.dropna(axis=0, how="any", inplace=True)` returns `None` — so the
claim that every supported strategy returns a NaN/Inf-free feature table
fails (its own docstring and the spec promise the repaired table). -/
theorem C4_delete_returns_none (t : List FRow) :
    repair_features t RepairStrategy.delete = none := rfl

/-! ### `compute_rel_AU_freq_cond_symm` (compute_adjacency.py) -/

/-- Entrywise `df_counts_and.loc[AUi, AUj] / df_counts_or.loc[AUi, AUj]` over
aggregated count matrices (exact rational division; since the AND count of a
pair never exceeds its OR count in the source data, a zero OR count forces a
zero AND count, and the `0 / 0` slot — `NaN` in floating point — is `0`
here). -/
def compute_rel_AU_freq_cond_symm (countsAnd countsOr : ℕ → ℕ → ℕ)
    (i j : ℕ) : ℚ :=
  (countsAnd i j : ℚ) / (countsOr i j : ℚ)

/-- Claim C7. If the aggregated AND-count and OR-count matrices are symmetric in
their two Action-Unit arguments, the adjacency matrix of the `"symm"` method
satisfies `adjacency(AUi, AUj) = adjacency(AUj, AUi)` for every pair. -/
theorem C7_symm_adjacency_symmetric (countsAnd countsOr : ℕ → ℕ → ℕ)
    (hA : ∀ i j, countsAnd i j = countsAnd j i)
    (hO : ∀ i j, countsOr i j = countsOr j i) (i j : ℕ) :
    compute_rel_AU_freq_cond_symm countsAnd countsOr i j
      = compute_rel_AU_freq_cond_symm countsAnd countsOr j i := by
  unfold compute_rel_AU_freq_cond_symm
  rw [hA i j, hO i j]

/-- Witness for C7 at constant count matrices and the pair `(0, 1)`. -/
theorem C7_symm_adjacency_symmetric_witness :
    compute_rel_AU_freq_cond_symm (fun _ _ => 1) (fun _ _ => 2) 0 1
      = compute_rel_AU_freq_cond_symm (fun _ _ => 1) (fun _ _ => 2) 1 0 :=
  C7_symm_adjacency_symmetric (fun _ _ => 1) (fun _ _ => 2)
    (fun _ _ => rfl) (fun _ _ => rfl) 0 1

/-! ### k-fold split (`KFold(n_splits=k, shuffle=False)` in `kfold_CV`) and
`OpenFace_Features_Dataset.get_train_test_idxs` -/

/-- sklearn `KFold` fold sizes: `n // k` each, plus one for the first
`n % k` folds. -/
def fold_size (n k f : ℕ) : ℕ := n / k + if f < n % k then 1 else 0

/-- The start of fold `f`'s contiguous test block (the sum of the sizes of
the previous folds). -/
def fold_start (n k f : ℕ) : ℕ := f * (n / k) + min f (n % k)

/-- The test indices of fold `f`: the contiguous block
`indices[current : current + fold_size]` of `np.arange(n)`. -/
def fold_test_idxs (n k f : ℕ) : List ℕ :=
  ((List.range n).drop (fold_start n k f)).take (fold_size n k f)

theorem fold_start_succ (n k f : ℕ) :
    fold_start n k (f + 1) = fold_start n k f + fold_size n k f := by
  unfold fold_start fold_size
  rw [Nat.succ_mul]
  split <;> omega

theorem fold_start_mono (n k : ℕ) : Monotone (fold_start n k) :=
  monotone_nat_of_le_succ (fun f => by rw [fold_start_succ]; omega)

theorem fold_start_k (n k : ℕ) (hk : 0 < k) : fold_start n k k = n := by
  unfold fold_start
  have h1 : n % k < k := Nat.mod_lt _ hk
  have h2 := Nat.div_add_mod n k
  rw [Nat.min_eq_right (by omega)]
  omega

theorem fold_start_add_size_le (n k f : ℕ) (hk : 0 < k) (hf : f < k) :
    fold_start n k f + fold_size n k f ≤ n := by
  rw [← fold_start_succ]
  calc fold_start n k (f + 1) ≤ fold_start n k k := fold_start_mono n k (by omega)
    _ = n := fold_start_k n k hk

theorem mem_fold_test_idxs {n k f i : ℕ} :
    i ∈ fold_test_idxs n k f
      ↔ fold_start n k f ≤ i ∧ i < fold_start n k f + fold_size n k f ∧ i < n := by
  unfold fold_test_idxs
  rw [List.mem_iff_getElem]
  constructor
  · rintro ⟨j, hj, rfl⟩
    have hj' := hj
    rw [List.length_take, List.length_drop, List.length_range] at hj'
    rw [List.getElem_take, List.getElem_drop, List.getElem_range]
    omega
  · rintro ⟨h1, h2, h3⟩
    refine ⟨i - fold_start n k f, ?_, ?_⟩
    · rw [List.length_take, List.length_drop, List.length_range]
      omega
    · rw [List.getElem_take, List.getElem_drop, List.getElem_range]
      omega

/-- Every index below `fold_start n k t` falls in the test block of exactly
one fold below `t`. -/
theorem fold_exists_aux (n k : ℕ) :
    ∀ t i, i < fold_start n k t →
      ∃ f, f < t ∧ fold_start n k f ≤ i ∧ i < fold_start n k f + fold_size n k f := by
  intro t
  induction t with
  | zero => intro i hi; simp [fold_start] at hi
  | succ t ih =>
    intro i hi
    rcases Nat.lt_or_ge i (fold_start n k t) with h | h
    · obtain ⟨f, hf, h1, h2⟩ := ih i h
      exact ⟨f, by omega, h1, h2⟩
    · rw [fold_start_succ] at hi
      exact ⟨t, by omega, h, hi⟩

/-- Models `get_train_test_idxs`: the boolean membership mask of each sample's
subject in the test-subject list, and its two `nonzero` index sets
(train first, test second, as in the source). -/
def get_train_test_idxs (sample_subjects : List ℕ) (test_subjects : List ℕ) :
    List ℕ × List ℕ :=
  (nonzeroIdxs (sample_subjects.map (fun s => !(test_subjects.contains s))),
   nonzeroIdxs (sample_subjects.map (fun s => test_subjects.contains s)))

theorem mem_get_train_test_idxs (sample_subjects test_subjects : List ℕ) (i : ℕ) :
    (i ∈ (get_train_test_idxs sample_subjects test_subjects).1
      ↔ i < sample_subjects.length
        ∧ ¬(test_subjects.contains (sample_subjects.getD i 0) = true))
    ∧ (i ∈ (get_train_test_idxs sample_subjects test_subjects).2
      ↔ i < sample_subjects.length
        ∧ test_subjects.contains (sample_subjects.getD i 0) = true) := by
  unfold get_train_test_idxs
  constructor
  · rw [mem_nonzeroIdxs, List.length_map]
    constructor
    · rintro ⟨h1, h2⟩
      rw [List.getD_eq_getElem _ _ (by rw [List.length_map]; exact h1),
        List.getElem_map] at h2
      rw [List.getD_eq_getElem _ _ h1]
      simp only [Bool.not_eq_true'] at h2
      exact ⟨h1, by rw [h2]; simp⟩
    · rintro ⟨h1, h2⟩
      refine ⟨h1, ?_⟩
      rw [List.getD_eq_getElem _ _ (by rw [List.length_map]; exact h1),
        List.getElem_map]
      rw [List.getD_eq_getElem _ _ h1] at h2
      simp only [Bool.not_eq_true] at h2
      rw [h2]
      rfl
  · rw [mem_nonzeroIdxs, List.length_map]
    constructor
    · rintro ⟨h1, h2⟩
      rw [List.getD_eq_getElem _ _ (by rw [List.length_map]; exact h1),
        List.getElem_map] at h2
      rw [List.getD_eq_getElem _ _ h1]
      exact ⟨h1, h2⟩
    · rintro ⟨h1, h2⟩
      refine ⟨h1, ?_⟩
      rw [List.getD_eq_getElem _ _ (by rw [List.length_map]; exact h1),
        List.getElem_map]
      rw [List.getD_eq_getElem _ _ h1] at h2
      exact h2

/-- Claim C8. For every subject list and fold count `k` with `0 < k` and
`k ≤ #subjects`, the contiguous non-shuffled k-fold split puts every subject
position into the test block of exactly one fold; and for every fold, the
training and test sample index sets derived by `get_train_test_idxs` from the
fold's test subjects are disjoint and together cover every sample index. -/
theorem C8_kfold_partition (subjects : List ℕ) (samples : List ℕ) (k : ℕ)
    (hk : 0 < k) (_hkn : k ≤ subjects.length) :
    (∀ i, i < subjects.length →
      ∃! f, f < k ∧ i ∈ fold_test_idxs subjects.length k f)
    ∧ (∀ f, f < k →
        (∀ i, i ∈ (get_train_test_idxs samples
            ((fold_test_idxs subjects.length k f).map (fun j => subjects.getD j 0))).1 →
          i ∉ (get_train_test_idxs samples
            ((fold_test_idxs subjects.length k f).map (fun j => subjects.getD j 0))).2)
        ∧ (∀ i, i < samples.length ↔
            (i ∈ (get_train_test_idxs samples
              ((fold_test_idxs subjects.length k f).map (fun j => subjects.getD j 0))).1
            ∨ i ∈ (get_train_test_idxs samples
              ((fold_test_idxs subjects.length k f).map (fun j => subjects.getD j 0))).2))) := by
  constructor
  · intro i hi
    have hi' : i < fold_start subjects.length k k := by
      rw [fold_start_k _ _ hk]; exact hi
    obtain ⟨f, hf, h1, h2⟩ := fold_exists_aux subjects.length k k i hi'
    refine ⟨f, ⟨hf, mem_fold_test_idxs.mpr ⟨h1, h2, hi⟩⟩, ?_⟩
    rintro f' ⟨hf', hmem'⟩
    obtain ⟨h1', h2', _⟩ := mem_fold_test_idxs.mp hmem'
    by_contra hne
    rcases Nat.lt_or_ge f' f with hlt | hge
    · have : fold_start subjects.length k (f' + 1) ≤ fold_start subjects.length k f :=
        fold_start_mono _ _ (by omega)
      rw [fold_start_succ] at this
      omega
    · have hgt : f < f' := by omega
      have : fold_start subjects.length k (f + 1) ≤ fold_start subjects.length k f' :=
        fold_start_mono _ _ (by omega)
      rw [fold_start_succ] at this
      omega
  · intro f _
    constructor
    · intro i h1 h2
      have hmem := mem_get_train_test_idxs samples
        ((fold_test_idxs subjects.length k f).map (fun j => subjects.getD j 0)) i
      have ha := hmem.1.mp h1
      have hb := hmem.2.mp h2
      exact ha.2 hb.2
    · intro i
      have hmem := mem_get_train_test_idxs samples
        ((fold_test_idxs subjects.length k f).map (fun j => subjects.getD j 0)) i
      constructor
      · intro hi
        by_cases hc : (((fold_test_idxs subjects.length k f).map
            (fun j => subjects.getD j 0)).contains (samples.getD i 0)) = true
        · exact Or.inr (hmem.2.mpr ⟨hi, hc⟩)
        · exact Or.inl (hmem.1.mpr ⟨hi, hc⟩)
      · rintro (h | h)
        · exact (hmem.1.mp h).1
        · exact (hmem.2.mp h).1

/-- Witness for C8 at `subjects = [10, 20, 30]`, `samples = [10, 10, 20, 30, 30]`,
`k = 2`. -/
theorem C8_kfold_partition_witness :
    (∀ i, i < ([10, 20, 30] : List ℕ).length →
      ∃! f, f < 2 ∧ i ∈ fold_test_idxs ([10, 20, 30] : List ℕ).length 2 f)
    ∧ (∀ f, f < 2 →
        (∀ i, i ∈ (get_train_test_idxs [10, 10, 20, 30, 30]
            ((fold_test_idxs ([10, 20, 30] : List ℕ).length 2 f).map
              (fun j => ([10, 20, 30] : List ℕ).getD j 0))).1 →
          i ∉ (get_train_test_idxs [10, 10, 20, 30, 30]
            ((fold_test_idxs ([10, 20, 30] : List ℕ).length 2 f).map
              (fun j => ([10, 20, 30] : List ℕ).getD j 0))).2)
        ∧ (∀ i, i < ([10, 10, 20, 30, 30] : List ℕ).length ↔
            (i ∈ (get_train_test_idxs [10, 10, 20, 30, 30]
              ((fold_test_idxs ([10, 20, 30] : List ℕ).length 2 f).map
                (fun j => ([10, 20, 30] : List ℕ).getD j 0))).1
            ∨ i ∈ (get_train_test_idxs [10, 10, 20, 30, 30]
              ((fold_test_idxs ([10, 20, 30] : List ℕ).length 2 f).map
                (fun j => ([10, 20, 30] : List ℕ).getD j 0))).2))) :=
  C8_kfold_partition [10, 20, 30] [10, 10, 20, 30, 30] 2 (by decide) (by decide)

/-! ### Best-checkpoint tracking in `kfold_CV` -/

/-- One training epoch of one fold: the value held by the model's parameter
tensors after this epoch's in-place `optimizer.step()` updates (abstracted to
a single value), and the test accuracy evaluated right after them. -/
structure EpochRec where
  params : ℤ
  acc : ℚ
deriving DecidableEq

/-- One fold: the parameter value written by the in-place
`model.apply(reset_params)` at the top of the fold (each layer's
`reset_parameters()` reinitializes the existing tensors), and the per-epoch
records.  The per-fold initial evaluation is recorded in the history but
never compared against `best_acc`, so it needs no field here. -/
structure FoldRec where
  resetParams : ℤ
  epochs : List EpochRec

/-- The run state threaded through `kfold_CV`: `live` is the value currently
held by the model's parameter tensors, `bestSet` records whether
`best_params = model.state_dict()` has executed — `state_dict()` returns an
OrderedDict of REFERENCES to those same live tensors, not a copy, so the
assignment stores no value of its own — and `bestAcc` is the float
`best_acc`, which IS copied by value. -/
structure RunState where
  live : ℤ
  bestSet : Bool
  bestAcc : ℚ

/-- One epoch of the fold loop: `train_epoch` mutates the parameters in
place, then `if test_acc > best_acc: best_acc = test_acc;
best_params = model.state_dict()`. -/
def epoch_step (st : RunState) (e : EpochRec) : RunState :=
  let st1 : RunState := { st with live := e.params }
  if st1.bestAcc < e.acc then { st1 with bestSet := true, bestAcc := e.acc }
  else st1

/-- One fold of `kfold_CV`: `model.apply(reset_params)` overwrites the live
parameters in place, then the epochs run. -/
def fold_step (st : RunState) (fd : FoldRec) : RunState :=
  fd.epochs.foldl epoch_step { st with live := fd.resetParams }

/-- The `(best_params, best_acc)` pair `kfold_CV` returns, as observed by the
caller: `best_params` is `None` when the guard never fired, and otherwise the
CURRENT value of the live parameter tensors it references — the value they
hold after the last fold's last epoch, not the value they held when the
assignment ran.  `init` is the parameter value the model enters the function
with. -/
def kfold_CV_best (init : ℤ) (folds : List FoldRec) : Option ℤ × ℚ :=
  let st := folds.foldl fold_step ⟨init, false, 0⟩
  (if st.bestSet then some st.live else none, st.bestAcc)

/-- Claim C5 (code bug, evaluation at the failing input).  A run with one
fold and two epochs: epoch 1 trains the parameters to `7` and scores test
accuracy `1` — the run's maximum, so the guard fires and
`best_params = model.state_dict()` executes — and epoch 2 trains them to `9`
with accuracy `0`.  Because `state_dict()` hands back references to the live
tensors and `optimizer.step()` keeps mutating them in place, the returned
`best_params` holds `9`, the final parameters, whereas the claim (and the
spec's "the checkpoint with the highest observed test accuracy ... is
retained") require the value `7` of the maximum-accuracy checkpoint; saving
a deep copy was the intent. -/
theorem C5_best_params_aliasing_eval :
    kfold_CV_best 0 [⟨0, [⟨7, 1⟩, ⟨9, 0⟩]⟩] = (some 9, 1) := by decide

/-! ### Frequency analysis (`frequency_analysis.py`) -/

/-- Raw per-subject OpenFace data for the frequency analysis: per-frame
labels, the AU classification and regression tables (an entry `none` is a
`NaN` slot), and the per-frame confidence values.  Rows are aligned by
position. -/
structure FASubject where
  id : ℕ
  labels : List ℤ
  AUc : List (List (Option ℚ))
  AUr : List (List (Option ℚ))
  confidence : List ℚ

/-- Models `value >= eps_activity` for one AU slot of one frame (`NaN` compares
`False`). -/
def au_active (row : List (Option ℚ)) (i : ℕ) (eps : ℚ) : Bool :=
  match row.getD i none with
  | some v => eps ≤ v
  | none => false

/-- One cell of `count_pair_occurrences`:
`df_AU_data[(labels == label) & comparator(df[AUi] >= eps, df[AUj] >= eps)]
  .iloc[:,0].count()` — the number of selected rows whose first column is not
`NaN`. -/
def count_pair_occurrences (data : List (List (Option ℚ))) (labels : List ℤ)
    (eps_activity : ℚ) (comp : Bool → Bool → Bool) (label : ℤ) (i j : ℕ) : ℕ :=
  ((labels.zip data).filter (fun p =>
      (p.1 == label)
      && comp (au_active p.2 i eps_activity) (au_active p.2 j eps_activity))).countP
    (fun p => (p.2.getD 0 none).isSome)

/-- The five aggregates produced per subject: the four count tables (AND/OR ×
AUc/AUr), each as a function of label and AU index pair, and the per-label
frame totals. -/
structure FACounts where
  AUcAnd : ℤ → ℕ → ℕ → ℕ
  AUcOr : ℤ → ℕ → ℕ → ℕ
  AUrAnd : ℤ → ℕ → ℕ → ℕ
  AUrOr : ℤ → ℕ → ℕ → ℕ
  framesPerLabel : ℤ → ℕ

def FACounts.zero : FACounts :=
  ⟨fun _ _ _ => 0, fun _ _ _ => 0, fun _ _ _ => 0, fun _ _ _ => 0, fun _ => 0⟩

def FACounts.add (a b : FACounts) : FACounts :=
  ⟨fun l i j => a.AUcAnd l i j + b.AUcAnd l i j,
   fun l i j => a.AUcOr l i j + b.AUcOr l i j,
   fun l i j => a.AUrAnd l i j + b.AUrAnd l i j,
   fun l i j => a.AUrOr l i j + b.AUrOr l i j,
   fun l => a.framesPerLabel l + b.framesPerLabel l⟩

/-- The five aggregates counted from one subject's loaded data
(`eps_activity` stays at its default `1.0` everywhere, as in the source). -/
def subject_counts (s : FASubject) : FACounts :=
  { AUcAnd := fun l i j => count_pair_occurrences s.AUc s.labels 1 and l i j,
    AUcOr := fun l i j => count_pair_occurrences s.AUc s.labels 1 or l i j,
    AUrAnd := fun l i j => count_pair_occurrences s.AUr s.labels 1 and l i j,
    AUrOr := fun l i j => count_pair_occurrences s.AUr s.labels 1 or l i j,
    framesPerLabel := fun l => (s.labels.filter (fun x => x == l)).length }

/-- Models `_subject_frequency_analysis` (equivalently the per-subject body of
the sequential loop) with explicit `eps_conf`; `none` is an uncaught
exception.  With a falsy `eps_conf` (`None` or `0.0` — the guard is
`if eps_conf:`) the filter branch is skipped and the unfiltered data is
counted.  With any truthy `eps_conf` the branch executes
`confidence = dataset.load_data(subject_id, target_channels="confidence")`
before any counting; the string `"confidence"` matches none of `load_data`'s
named channel groups and falls into its final `else`, which calls
`pd.read_csv(..., usecols="confidence")`, and pandas raises `ValueError` for
a bare-string `usecols` (an out-of-range threshold raises `AssertionError`
even earlier) — so no counts are ever produced on that path. -/
def subject_frequency_analysis (eps_conf : Option ℚ) (s : FASubject) :
    Option FACounts :=
  match eps_conf with
  | none => some (subject_counts s)
  | some e => if e == 0 then some (subject_counts s) else none

/-- The body of the sequential per-subject loop: `continue` past an excluded
subject, otherwise run the per-subject counting and accumulate; an exception
in any iteration propagates and aborts the whole analysis. -/
def seq_step (subjects_no_use : List ℕ) (eps_conf : Option ℚ)
    (acc : Option FACounts) (s : FASubject) : Option FACounts :=
  match acc with
  | none => none
  | some a =>
    if subjects_no_use.contains s.id then some a
    else
      match subject_frequency_analysis eps_conf s with
      | some r => some (a.add r)
      | none => none

/-- Models `frequency_analysis` (sequential): loop over all subjects,
accumulating into the zero-initialized totals. -/
def frequency_analysis (subjects : List FASubject) (subjects_no_use : List ℕ)
    (eps_conf : Option ℚ) : Option FACounts :=
  subjects.foldl (seq_step subjects_no_use eps_conf) (some FACounts.zero)

/-- Joining one parallel job's result into the running totals; a failed job
aborts the whole run. -/
def par_add (acc r : Option FACounts) : Option FACounts :=
  match acc, r with
  | some a, some b => some (a.add b)
  | _, _ => none

/-- Models `frequency_analysis_parallel`: one
`_subject_frequency_analysis(subj_id)` job per included subject — `eps_conf`
is NOT forwarded to the jobs (line 110), so every job runs with its default
`eps_conf=None` — then the per-subject results are summed. -/
def frequency_analysis_parallel (subjects : List FASubject)
    (subjects_no_use : List ℕ) (_eps_conf : Option ℚ) : Option FACounts :=
  ((subjects.filter (fun s => !(subjects_no_use.contains s.id))).map
    (subject_frequency_analysis none)).foldl par_add (some FACounts.zero)

/-- A subject whose two frames carry label 2 with a single active AUc/AUr
channel and full confidence. -/
def faSubj : FASubject :=
  ⟨1, [2, 2], [[some 1], [some 1]], [[some 1], [some 1]], [1, 1]⟩

/-- Claim C6, counterexample.  With the confidence threshold `1` and one
included subject, the sequential analysis aborts with `ValueError` — its
truthy branch calls `load_data(subject_id, target_channels="confidence")`,
whose bare-string `usecols` pandas rejects — before any counting, while the
parallel analysis never forwards the threshold to its jobs, completes, and
returns the aggregated counts.  So the sequential and the parallel analysis
are not identical for every value of the optional threshold. -/
theorem C6_eps_conf_counterexample :
    (frequency_analysis [faSubj] [] (some 1)).isNone = true
    ∧ (frequency_analysis_parallel [faSubj] [] (some 1)).isSome = true := by
  decide

theorem frequency_analysis_foldl_aux (excl : List ℕ) (l : List FASubject) :
    ∀ a : FACounts,
      l.foldl (seq_step excl none) (some a)
      = ((l.filter (fun s => !(excl.contains s.id))).map
          (subject_frequency_analysis none)).foldl par_add (some a) := by
  induction l with
  | nil => intro a; rfl
  | cons s rest ih =>
    intro a
    rw [List.foldl_cons, List.filter_cons]
    by_cases hc : excl.contains s.id
    · have h1 : seq_step excl none (some a) s = some a := by
        unfold seq_step
        show (if excl.contains s.id then some a
          else match subject_frequency_analysis none s with
            | some r => some (a.add r)
            | none => none) = some a
        rw [hc]
        simp only [if_true]
      have hcf : (!excl.contains s.id) = false := by rw [hc]; rfl
      rw [h1, hcf]
      simp only [Bool.false_eq_true, if_false]
      exact ih a
    · have hcb : excl.contains s.id = false := by
        cases hx : excl.contains s.id
        · rfl
        · exact absurd hx hc
      have h1 : seq_step excl none (some a) s = some (a.add (subject_counts s)) := by
        unfold seq_step
        show (if excl.contains s.id then some a
          else match subject_frequency_analysis none s with
            | some r => some (a.add r)
            | none => none) = some (a.add (subject_counts s))
        rw [hcb]
        simp only [Bool.false_eq_true, if_false]
        rfl
      have hct : (!excl.contains s.id) = true := by rw [hcb]; rfl
      rw [h1, hct]
      simp only [if_true]
      rw [List.map_cons, List.foldl_cons]
      have h2 : par_add (some a) (subject_frequency_analysis none s)
          = some (a.add (subject_counts s)) := rfl
      rw [h2]
      exact ih (a.add (subject_counts s))

/-- Claim C6, amended.  When no confidence threshold is supplied (`eps_conf =
None`, its default), the sequential frequency analysis and the parallel
per-subject analysis followed by post-hoc summation produce identical count
tables and identical per-label frame totals, for every subject list and
exclusion list.  (With a truthy threshold the sequential run aborts with an
exception while the parallel run — which does not forward `eps_conf` to its
jobs — completes, so the two are not comparable there.) -/
theorem C6_seq_parallel_agree_without_threshold (subjects : List FASubject)
    (subjects_no_use : List ℕ) :
    frequency_analysis subjects subjects_no_use none
      = frequency_analysis_parallel subjects subjects_no_use none := by
  unfold frequency_analysis frequency_analysis_parallel
  exact frequency_analysis_foldl_aux subjects_no_use subjects FACounts.zero

end XITE
